import Mathlib

/-!
Verification development for the codex-orchestrator job pipeline.

Shallow embedding of the TypeScript sources:
* `src/db/orchestratorDb.ts` (SQLite variant): job-status writes
  (`markJobStatus`, `upsertJob`, the `record*` stage writes,
  `ensureTerminalJobStatus`).
* `deterministicOrchestrator` (`buildBatches`, `runDeterministicOrchestrator`).
* `codexRunSubtaskTool.ts` / `codexMergeResultsTool.ts`
  (`sanitizeBranchName`, `extractLastJsonObject`, `extractJsonObject`,
  `assertGitPointerUnchanged`, the per-branch merge flow).
* `codexExecLogger` (`appendWithLimit`).

Machine strings are modelled as Lean `String` / `List Char`
(JavaScript string positions are modelled per character).
-/

namespace Orchestrator

/-! ## Job status store (orchestratorDb.ts, SQLite section) -/

/-- Job status enumeration from `orchestratorDb.ts` (`type JobStatus`). -/
inductive JobStatus where
  | analyzing | refactoring | planning | running | merging
  | done | needs_manual_review | failed
  deriving DecidableEq, Repr, Fintype

/-- The priority table used by `markJobStatus` (lines 408-417). -/
def JobStatus.priority : JobStatus → Nat
  | .failed => 7
  | .needs_manual_review => 6
  | .done => 5
  | .merging => 4
  | .running => 3
  | .planning => 2
  | .refactoring => 1
  | .analyzing => 0

/-- Terminal statuses as tested by `ensureTerminalJobStatus`. -/
def JobStatus.isTerminal : JobStatus → Bool
  | .done => true
  | .failed => true
  | .needs_manual_review => true
  | _ => false

/-- Effect of `upsertJob(context, status)` on the stored status of one job:
the SQL `ON CONFLICT ... DO UPDATE SET status=excluded.status` overwrites the
status unconditionally, and the insert branch creates the row with it. -/
def upsertJobStatus (_cur : Option JobStatus) (s : JobStatus) : Option JobStatus :=
  some s

/-- Effect of `markJobStatus(context, status)` on the stored status: absent row
is created via `upsertJob`; otherwise the write is dropped when the new
status has strictly lower priority than the current one. -/
def markJobStatus (cur : Option JobStatus) (s : JobStatus) : Option JobStatus :=
  match cur with
  | none => upsertJobStatus none s
  | some c => if s.priority < c.priority then some c else some s

/-- Effect of `ensureTerminalJobStatus(context, fallback)` on the stored
status: missing row and terminal statuses are left alone, otherwise it
delegates to `markJobStatus`. -/
def ensureTerminalJobStatus (cur : Option JobStatus) (fallback : JobStatus) :
    Option JobStatus :=
  match cur with
  | none => none
  | some c => if c.isTerminal then some c else markJobStatus (some c) fallback

/-- The State-Store write operations named in the spec, restricted to their
effect on the job-status column. -/
inductive WriteOp where
  | mark (s : JobStatus)
  | plannerOutput
  | analysisOutput
  | refactorOutput
  | subtaskStart
  | subtaskResult (isOk : Bool)
  | mergeStart
  | mergeResult (needsReview : Bool)
  | mergeFailure
  | ensureTerminal (fallback : JobStatus)
  deriving DecidableEq, Repr

/-- Job-status effect of each write operation, read off the bodies in
`orchestratorDb.ts`: every `record*` write calls `upsertJob` with its stage
status unconditionally; only `markJobStatus` consults the priority table. -/
def applyWrite (cur : Option JobStatus) : WriteOp → Option JobStatus
  | .mark s => markJobStatus cur s
  | .plannerOutput => upsertJobStatus cur .planning
  | .analysisOutput => upsertJobStatus cur .analyzing
  | .refactorOutput => upsertJobStatus cur .refactoring
  | .subtaskStart => upsertJobStatus cur .running
  | .subtaskResult isOk => upsertJobStatus cur (if isOk then .running else .failed)
  | .mergeStart => upsertJobStatus cur .merging
  | .mergeResult needsReview =>
      upsertJobStatus cur (if needsReview then .needs_manual_review else .done)
  | .mergeFailure => upsertJobStatus cur .failed
  | .ensureTerminal fallback => ensureTerminalJobStatus cur fallback

/-- Stored status after a sequence of writes, starting from an absent row. -/
def runWrites (ops : List WriteOp) : Option JobStatus :=
  ops.foldl applyWrite none

/-! ## Batch grouping (`buildBatches`, deterministicOrchestrator) -/

/-- One subtask of a plan (`CodexPlanTaskResult["subtasks"][number]`);
`parallel_group` is a plain string in the planner schema (may be empty). -/
structure PlanSubtask where
  id : String
  title : String
  description : String
  parallel_group : String
  deriving DecidableEq, Repr

/-- A plan as produced by `codexPlanTask`. -/
structure Plan where
  can_parallelize : Bool
  subtasks : List PlanSubtask
  deriving DecidableEq, Repr

/-- The group key computed inside `buildBatches` for the subtask at position
`idx` (0-based): `parallel_group || solo-(idx+1)` when the plan can
parallelize (the empty string is falsy in JavaScript), else `seq-(idx+1)`. -/
def groupKey (canPar : Bool) (idx : Nat) (st : PlanSubtask) : String :=
  if canPar then
    if st.parallel_group = "" then "solo-" ++ toString (idx + 1)
    else st.parallel_group
  else "seq-" ++ toString (idx + 1)

/-- Each plan subtask paired with its group key. -/
def keyedSubtasks (plan : Plan) : List (String × PlanSubtask) :=
  plan.subtasks.enum.map (fun p => (groupKey plan.can_parallelize p.1 p.2, p.2))

/-- One step of the `buildBatches` loop: the `groupIndex` map keyed by group
key together with the batch list is modelled as an ordered association list;
a known key appends the subtask to its batch, a new key appends a new batch. -/
def insertIntoBatches (acc : List (String × List PlanSubtask)) (key : String)
    (st : PlanSubtask) : List (String × List PlanSubtask) :=
  if acc.any (fun p => p.1 = key) then
    acc.map (fun p => if p.1 = key then (p.1, p.2 ++ [st]) else p)
  else
    acc ++ [(key, [st])]

/-- `buildBatches(plan)` from `deterministicOrchestrator`: group subtasks by
their group key, batches ordered by first appearance of the key. -/
def buildBatches (plan : Plan) : List (List PlanSubtask) :=
  ((keyedSubtasks plan).foldl (fun acc p => insertIntoBatches acc p.1 p.2) []).map (·.2)

/-- Remove duplicates keeping the first occurrence of each key. -/
def dedupKeepFirst (l : List String) : List String :=
  l.foldl (fun acc k => if acc.contains k then acc else acc ++ [k]) []

/-- Grouping described by the spec text: batch keys in order of first
appearance, each batch holding exactly the subtasks carrying that key, in
plan order. Used as the independent specification `buildBatches` is compared
against. -/
def specBatches (plan : Plan) : List (List PlanSubtask) :=
  (dedupKeepFirst ((keyedSubtasks plan).map (·.1))).map
    (fun k => ((keyedSubtasks plan).filter (fun q => q.1 = k)).map (·.2))

/-! ## Branch-name sanitiser (`sanitizeBranchName`) -/

/-- Membership in the character class `[-A-Za-z0-9._/]` (dash, letters,
digits, dot, underscore, slash) of the sanitiser's regular expression. -/
def isBranchChar (c : Char) : Bool :=
  c.isAlpha || c.isDigit || c = '.' || c = '_' || c = '/' || c = '-'

/-- The first replace of `sanitizeBranchName`, one character at a time: the
flag remembers whether the previous character already emitted the `'-'` for
the current run of characters outside the class. -/
def replaceBadRunsAux : Bool → List Char → List Char
  | _, [] => []
  | prevBad, c :: rest =>
      if isBranchChar c then c :: replaceBadRunsAux false rest
      else if prevBad then replaceBadRunsAux true rest
      else '-' :: replaceBadRunsAux true rest

/-- The first replace of `sanitizeBranchName`: each maximal run of characters
outside the class becomes a single `'-'`. -/
def replaceBadRuns (l : List Char) : List Char := replaceBadRunsAux false l

/-- `.replace(/^-+|-+$/g, "")`: drop the leading and the trailing run of
`'-'` characters. -/
def trimDashes (l : List Char) : List Char :=
  ((l.dropWhile (fun c => c = '-')).reverse.dropWhile (fun c => c = '-')).reverse

/-- `sanitizeBranchName(name, fallback)` from `codexRunSubtaskTool.ts` /
`codexMergeResultsTool.ts`. -/
def sanitizeBranchName (name fallback : String) : String :=
  let cleaned := trimDashes (replaceBadRuns name.data)
  if cleaned.isEmpty then fallback else String.mk cleaned

/-! ## Bounded capture buffer (`appendWithLimit`, codexExecLogger) -/

/-- `appendWithLimit(buffer, chunk, limit)`: concatenate and keep only the
last `limit` characters when the result is longer (`next.slice(next.length -
limit)`); a non-positive limit disables the bound. -/
def appendWithLimit (buffer chunk : List Char) (limit : Nat) : List Char :=
  if limit = 0 then buffer ++ chunk
  else
    let next := buffer ++ chunk
    if next.length ≤ limit then next
    else next.drop (next.length - limit)

/-- The retained capture string after the `handleData` handler has processed
every chunk in order (each chunk folded through `appendWithLimit`). -/
def retainedCapture (chunks : List (List Char)) (limit : Nat) : List Char :=
  chunks.foldl (fun b c => appendWithLimit b c limit) []

/-! ## JSON values and a model of `JSON.parse`

`JSON.parse` is modelled syntactically: numbers and string bodies are kept as
their validated lexemes, since the claims only depend on parse
success/failure and on which slice parses. -/

/-- The opening curly bracket character. -/
def lbraceChar : Char := Char.ofNat 123

/-- The closing curly bracket character. -/
def rbraceChar : Char := Char.ofNat 125

/-- A decoded JSON value. -/
inductive JsonVal where
  | null
  | bool (b : Bool)
  | num (lexeme : String)
  | str (body : String)
  | arr (elems : List JsonVal)
  | obj (fields : List (String × JsonVal))

/-- `JSON.parse` maps the JSON literal `null` to the JavaScript value
`null`; this discriminator models comparisons against that value. -/
def JsonVal.isNull : JsonVal → Bool
  | .null => true
  | _ => false

/-- JSON insignificant whitespace (space, tab, line feed, carriage return). -/
def isJsonWs (c : Char) : Bool :=
  c = ' ' || c = '\t' || c = '\n' || c = '\r'

/-- Skip insignificant whitespace. -/
def skipWs (l : List Char) : List Char := l.dropWhile isJsonWs

/-- Hexadecimal digit as accepted in a `\u` escape. -/
def isHexDigit (c : Char) : Bool :=
  c.isDigit || ('a' ≤ c && c ≤ 'f') || ('A' ≤ c && c ≤ 'F')

/-- Single-character escapes accepted after a backslash in a JSON string. -/
def isSimpleEscape (c : Char) : Bool :=
  c = '"' || c = '\\' || c = '/' || c = 'b' || c = 'f' ||
  c = 'n' || c = 'r' || c = 't'

/-- Scan a JSON string body starting after the opening quote; return the
(body arm still containing escape sequences) and the input after the closing
quote. The fuel argument only serves structural recursion; callers pass the
input length plus one, which one consumed character per step cannot
exhaust. -/
def scanStringBody : Nat → List Char → Option (List Char × List Char)
  | 0, _ => none
  | _ + 1, [] => none
  | fuel + 1, c :: rest =>
      if c = '"' then some ([], rest)
      else if c = '\\' then
        match rest with
        | [] => none
        | e :: rest2 =>
            if e = 'u' then
              match rest2 with
              | h1 :: h2 :: h3 :: h4 :: rest3 =>
                  if isHexDigit h1 && isHexDigit h2 && isHexDigit h3 && isHexDigit h4 then
                    (scanStringBody fuel rest3).map
                      (fun p => (c :: e :: h1 :: h2 :: h3 :: h4 :: p.1, p.2))
                  else none
              | _ => none
            else if isSimpleEscape e then
              (scanStringBody fuel rest2).map (fun p => (c :: e :: p.1, p.2))
            else none
      else if c.toNat < 32 then none
      else (scanStringBody fuel rest).map (fun p => (c :: p.1, p.2))

/-- Scan the digits/fraction/exponent tail of a JSON number after its integer
part, returning the lexeme characters and the rest. -/
def scanNumberTail (l : List Char) : List Char × List Char :=
  let fracLex : List Char × List Char :=
    match l with
    | '.' :: r =>
        let ds := r.takeWhile Char.isDigit
        if ds.isEmpty then ([], l) else ('.' :: ds, r.dropWhile Char.isDigit)
    | _ => ([], l)
  let afterFrac := fracLex.2
  let expLex : List Char × List Char :=
    match afterFrac with
    | e :: r =>
        if e = 'e' || e = 'E' then
          let (signChars, r2) :=
            match r with
            | s :: r' => if s = '+' || s = '-' then ([s], r') else (([] : List Char), r)
            | [] => (([] : List Char), r)
          let ds := r2.takeWhile Char.isDigit
          if ds.isEmpty then ([], afterFrac)
          else (e :: signChars ++ ds, r2.dropWhile Char.isDigit)
        else ([], afterFrac)
    | [] => ([], afterFrac)
  (fracLex.1 ++ expLex.1, expLex.2)

/-- Validity of the fraction/exponent structure is enforced inside
`scanNumberTail`; this scans a complete JSON number lexeme
(`-? (0 | [1-9][0-9]*) frac? exp?`). -/
def scanNumber (l : List Char) : Option (List Char × List Char) :=
  let (sign, l1) :=
    match l with
    | c :: rest => if c = '-' then ([c], rest) else (([] : List Char), l)
    | [] => (([] : List Char), l)
  match l1 with
  | [] => none
  | d :: rest =>
      if d = '0' then
        let (tail, r) := scanNumberTail rest
        some (sign ++ d :: tail, r)
      else if d.isDigit then
        let ds := rest.takeWhile Char.isDigit
        let (tail, r) := scanNumberTail (rest.dropWhile Char.isDigit)
        some (sign ++ d :: ds ++ tail, r)
      else none

mutual

/-- Recursive-descent model of `JSON.parse`: parse one JSON value, returning
the value and the unconsumed input. Fuel decreases at each bracket level and
list step; top-level callers supply more fuel than the input length. -/
def parseVal : Nat → List Char → Option (JsonVal × List Char)
  | 0, _ => none
  | fuel + 1, l =>
      match skipWs l with
      | [] => none
      | c :: rest =>
          if c = 'n' then
            match rest with
            | 'u' :: 'l' :: 'l' :: r => some (.null, r)
            | _ => none
          else if c = 't' then
            match rest with
            | 'r' :: 'u' :: 'e' :: r => some (.bool true, r)
            | _ => none
          else if c = 'f' then
            match rest with
            | 'a' :: 'l' :: 's' :: 'e' :: r => some (.bool false, r)
            | _ => none
          else if c = '"' then
            (scanStringBody (rest.length + 1) rest).map
              (fun p => (.str (String.mk p.1), p.2))
          else if c = '-' || c.isDigit then
            (scanNumber (c :: rest)).map (fun p => (.num (String.mk p.1), p.2))
          else if c = '[' then
            match skipWs rest with
            | [] => none
            | d :: r2 =>
                if d = ']' then some (.arr [], r2)
                else (parseArrayElems fuel (d :: r2)).map (fun p => (.arr p.1, p.2))
          else if c = lbraceChar then
            match skipWs rest with
            | [] => none
            | d :: r2 =>
                if d = rbraceChar then some (.obj [], r2)
                else (parseObjPairs fuel (d :: r2)).map (fun p => (.obj p.1, p.2))
          else none

/-- Parse one or more comma-separated array elements up to the closing
bracket (a trailing comma is a parse error, as in `JSON.parse`). -/
def parseArrayElems : Nat → List Char → Option (List JsonVal × List Char)
  | 0, _ => none
  | fuel + 1, l =>
      match parseVal fuel l with
      | none => none
      | some (v, r) =>
          match skipWs r with
          | ',' :: r2 => (parseArrayElems fuel r2).map (fun p => (v :: p.1, p.2))
          | ']' :: r2 => some ([v], r2)
          | _ => none

/-- Parse one or more `"key": value` object members up to the closing brace
(a trailing comma is a parse error, as in `JSON.parse`). -/
def parseObjPairs : Nat → List Char → Option (List (String × JsonVal) × List Char)
  | 0, _ => none
  | fuel + 1, l =>
      match skipWs l with
      | '"' :: rest =>
          match scanStringBody (rest.length + 1) rest with
          | none => none
          | some (key, r1) =>
              match skipWs r1 with
              | ':' :: r2 =>
                  match parseVal fuel r2 with
                  | none => none
                  | some (v, r3) =>
                      match skipWs r3 with
                      | ',' :: r4 =>
                          (parseObjPairs fuel r4).map
                            (fun p => ((String.mk key, v) :: p.1, p.2))
                      | d :: r4 =>
                          if d = rbraceChar then some ([(String.mk key, v)], r4)
                          else none
                      | [] => none
              | _ => none
      | _ => none

end

/-- `JSON.parse(s)` accepting only a complete JSON text: one value followed
by nothing but whitespace. -/
def jsonParseWhole (s : String) : Option JsonVal :=
  match parseVal (2 * s.data.length + 2) s.data with
  | some (v, rest) => if (skipWs rest).isEmpty then some v else none
  | none => none

/-- `tryParseJson(text)` from `codexRunSubtaskTool.ts`: returns the parsed
value, or `null` on a parse error — so a successfully parsed JSON `null` is
indistinguishable from failure, which this model folds into `none`. -/
def tryParseJson (s : String) : Option JsonVal :=
  match jsonParseWhole s with
  | some v => if v.isNull then none else some v
  | none => none

/-! ## The JSON extractor (`extractLastJsonObject`) -/

/-- `text.trim()` (the inputs at hand only carry ASCII whitespace). -/
def trimChars (l : List Char) : List Char :=
  ((l.dropWhile isJsonWs).reverse.dropWhile isJsonWs).reverse

/-- The single-character occurrence positions of `c` in `l` that are at most
`bound`, in descending order. -/
def descPositions (l : List Char) (c : Char) (bound : Nat) : List Nat :=
  (((List.range (bound + 1)).filter (fun i => l.get? i = some c)).reverse)

/-- ECMA-262 `String.prototype.lastIndexOf` for a one-character search
string: the largest index `k ≤ min(max(fromIdx, 0), length - 1)` holding
`c`. A negative `fromIdx` is clamped to `0`, so the search still inspects
index `0`. -/
def jsLastIndexOfChar (l : List Char) (c : Char) (fromIdx : Int) : Option Nat :=
  (descPositions l c (if fromIdx < 0 then 0 else fromIdx.toNat)).head?

/-- Observable behaviour of one call to `extractLastJsonObject`: a returned
value, a thrown error, or non-termination of the scan loop. -/
inductive ExtractOutcome where
  | value (v : JsonVal)
  | thrown
  | hang

/-- The candidate slice `trimmed.slice(start, lastClosing + 1)`. -/
def candidateSlice (trimmed : List Char) (lastClosing start : Nat) : String :=
  String.mk ((trimmed.take (lastClosing + 1)).drop start)

/-- The scan loop of `extractLastJsonObject`, modelled structurally: at
position `start` try the candidate slice; on failure move to
`lastIndexOf("\x7b", start - 1)`. When `start = 0` that call clamps the
negative index to `0` and, if position `0` holds a brace, returns `0` again:
the JavaScript loop then repeats the identical iteration forever, modelled
as `.hang`. The fuel argument only services structural recursion (each
successful step strictly decreases `start`); callers pass `start + 1`, so
the `0` branch is unreachable. -/
def extractScan (trimmed : List Char) (lastClosing : Nat) :
    Nat → Nat → ExtractOutcome
  | 0, _ => .hang
  | fuel + 1, start =>
      match tryParseJson (candidateSlice trimmed lastClosing start) with
      | some v => .value v
      | none =>
          match jsLastIndexOfChar trimmed lbraceChar ((start : Int) - 1) with
          | none => .thrown
          | some s' => if s' < start then extractScan trimmed lastClosing fuel s' else .hang

/-- `extractLastJsonObject(text)` from `codexRunSubtaskTool.ts`: trim, try a
strict whole parse, then scan brace candidates from the last closing brace
leftwards. -/
def extractLastJsonObject (text : String) : ExtractOutcome :=
  if (trimChars text.data).isEmpty then .thrown
  else
    match tryParseJson (String.mk (trimChars text.data)) with
    | some v => .value v
    | none =>
        match jsLastIndexOfChar (trimChars text.data) rbraceChar
            ((trimChars text.data).length : Int) with
        | none => .thrown
        | some lastClosing =>
            match jsLastIndexOfChar (trimChars text.data) lbraceChar
                (lastClosing : Int) with
            | none => .thrown
            | some start0 =>
                extractScan (trimChars text.data) lastClosing (start0 + 1) start0

/-- Declarative walk over an explicit descending list of brace positions:
return the first candidate that parses; if none parses and the walk ends at
position `0` (necessarily a brace position) the loop revisits `0` forever. -/
def specScan (trimmed : List Char) (lastClosing : Nat) : List Nat → ExtractOutcome
  | [] => .thrown
  | i :: rest =>
      match tryParseJson (candidateSlice trimmed lastClosing i) with
      | some v => .value v
      | none =>
          if rest.isEmpty then (if i = 0 then .hang else .thrown)
          else specScan trimmed lastClosing rest

/-- The spec's description of the extractor, stated over the explicit list
of candidate positions: strict whole parse first; otherwise walk the brace
positions before the last closing brace from right to left. -/
def extractSpecDescribed (text : String) : ExtractOutcome :=
  if (trimChars text.data).isEmpty then .thrown
  else
    match tryParseJson (String.mk (trimChars text.data)) with
    | some v => .value v
    | none =>
        match (descPositions (trimChars text.data) rbraceChar
            (trimChars text.data).length).head? with
        | none => .thrown
        | some lastClosing =>
            specScan (trimChars text.data) lastClosing
              (descPositions (trimChars text.data) lbraceChar lastClosing)

/-! ## Per-branch merge flow (`codexMergeResultsTool.ts`)

`mergeBranchIntoResult` and `resolveConflictsWithCodex` interact with git
and the filesystem; those effects are modelled by a per-branch world record
(what the merge exit code was, which files the two unmerged-file queries
report, and what the `.git` pointer reads observe), and the side effects are
recorded as an event trace. Diff queries are not traced. -/

/-- Externally visible actions of the merge flow, in order of occurrence. -/
inductive MergeEvent where
  | gitMerge (branch : String)
  | readPointer (content : String)
  | codexExec (branch : String)
  | gitAddAll
  | gitCommit (message : String)
  | gitPush (remote branch : String)
  deriving DecidableEq, Repr

/-- Environment of one `mergeBranchIntoResult` call. -/
structure BranchWorld where
  /-- Exit code 0 of `git merge --no-commit --no-ff`. -/
  mergeExitOk : Bool
  /-- First `getUnmergedFiles` query result. -/
  conflictFiles : List String
  /-- `lstat(".git").isFile()` at the read before the Worker CLI runs. -/
  pointerBeforeIsFile : Bool
  /-- Content of the `.git` pointer file before the Worker CLI runs. -/
  pointerBefore : String
  /-- `lstat(".git").isFile()` at the re-read after the Worker CLI returns. -/
  pointerAfterIsFile : Bool
  /-- Content of the `.git` pointer file after the Worker CLI returns. -/
  pointerAfter : String
  /-- Second `getUnmergedFiles` query result. -/
  remainingAfterCodex : List String
  deriving DecidableEq, Repr

/-- Outcome of a merge-flow step: the accumulated event trace and either an
error message or the successful payload. -/
structure MergeStep (α : Type) where
  trace : List MergeEvent
  result : Except String α
  deriving Repr

/-- The successful payload of a merge-flow step, if any. -/
def MergeStep.okValue {α : Type} (s : MergeStep α) : Option α :=
  match s.result with
  | .ok a => some a
  | .error _ => none

/-- Whether a merge-flow step succeeded. -/
def MergeStep.isOk {α : Type} (s : MergeStep α) : Bool :=
  s.okValue.isSome

/-- `resolveConflictsWithCodex` (lines 262-284): read the `.git` pointer,
run the Worker CLI on the conflict prompt, then `assertGitPointerUnchanged`
(lines 223-242): the re-read must still be a regular file and the trimmed
contents must coincide. -/
def resolveConflictsWithCodex (branch : String) (w : BranchWorld) :
    MergeStep Unit :=
  if !w.pointerBeforeIsFile then
    { trace := [], result := .error ".git in merge worktree is not a file" }
  else if !w.pointerAfterIsFile then
    { trace := [MergeEvent.readPointer w.pointerBefore, MergeEvent.codexExec branch],
      result := .error ".git in merge worktree was modified (not a file anymore)" }
  else if trimChars w.pointerAfter.data ≠ trimChars w.pointerBefore.data then
    { trace := [MergeEvent.readPointer w.pointerBefore, MergeEvent.codexExec branch,
                MergeEvent.readPointer w.pointerAfter],
      result := .error ".git pointer was modified during Codex run" }
  else
    { trace := [MergeEvent.readPointer w.pointerBefore, MergeEvent.codexExec branch,
                MergeEvent.readPointer w.pointerAfter],
      result := .ok () }

/-- The conflict-handling portion of `mergeBranchIntoResult` (lines
302-311): skipped when the unmerged-file query is empty; otherwise the
Worker CLI resolves the conflicts under the pointer guard, and any files
still unmerged afterwards fail the merge. -/
def conflictResolutionStep (branch : String) (w : BranchWorld) :
    MergeStep Unit :=
  if w.conflictFiles.isEmpty then { trace := [], result := .ok () }
  else
    match (resolveConflictsWithCodex branch w).result with
    | .error e =>
        { trace := (resolveConflictsWithCodex branch w).trace, result := .error e }
    | .ok () =>
        if !w.remainingAfterCodex.isEmpty then
          { trace := (resolveConflictsWithCodex branch w).trace,
            result := .error ("Unmerged files remain after Codex conflict resolution for branch " ++ branch) }
        else
          { trace := (resolveConflictsWithCodex branch w).trace, result := .ok () }

/-- `mergeBranchIntoResult` (lines 286-321): merge, detect conflicts, invoke
the Worker CLI when conflicts exist, verify resolution, then stage and
commit. The returned Bool is `hadConflicts`. -/
def mergeBranchIntoResult (branch resultBranch : String) (w : BranchWorld) :
    MergeStep Bool :=
  if !w.mergeExitOk && w.conflictFiles.isEmpty then
    { trace := [MergeEvent.gitMerge branch],
      result := .error ("git merge of branch failed without detectable conflicts: " ++ branch) }
  else
    match (conflictResolutionStep branch w).result with
    | .error e =>
        { trace := MergeEvent.gitMerge branch :: (conflictResolutionStep branch w).trace,
          result := .error e }
    | .ok () =>
        { trace := MergeEvent.gitMerge branch :: (conflictResolutionStep branch w).trace
            ++ [MergeEvent.gitAddAll, MergeEvent.gitCommit
                  (if !(!w.conflictFiles.isEmpty || !w.mergeExitOk) then
                     "Merge branch " ++ branch ++ " into " ++ resultBranch
                   else "Merge branch " ++ branch ++ " (conflicts resolved via Codex)")],
          result := .ok (!w.conflictFiles.isEmpty || !w.mergeExitOk) }

/-- Result value of `codexMergeResults` (`MergeOutputSchema`). -/
structure MergeResultVal where
  status : String
  notes : String
  deriving DecidableEq, Repr

/-- The per-branch loop of `codexMergeResults` (lines 365-369): sequential
merges, aborting the whole merge at the first error. -/
def mergeBranchLoop (resultBranch : String) (worlds : String → BranchWorld) :
    List String → MergeStep (List Bool)
  | [] => { trace := [], result := .ok [] }
  | b :: rest =>
      match (mergeBranchIntoResult b resultBranch (worlds b)).result with
      | .error e =>
          { trace := (mergeBranchIntoResult b resultBranch (worlds b)).trace,
            result := .error e }
      | .ok hadConflicts =>
          match (mergeBranchLoop resultBranch worlds rest).result with
          | .error e =>
              { trace := (mergeBranchIntoResult b resultBranch (worlds b)).trace
                  ++ (mergeBranchLoop resultBranch worlds rest).trace,
                result := .error e }
          | .ok flags =>
              { trace := (mergeBranchIntoResult b resultBranch (worlds b)).trace
                  ++ (mergeBranchLoop resultBranch worlds rest).trace,
                result := .ok (hadConflicts :: flags) }

/-- `codexMergeResults` (lines 323-382) after worktree setup: merge every
subtask branch sequentially, then build the merge notes. The input schema
(lines 19-38) has no push option and the body issues no `git push`. -/
def codexMergeResults (branches : List String) (resultBranch : String)
    (worlds : String → BranchWorld) : MergeStep MergeResultVal :=
  match (mergeBranchLoop resultBranch worlds branches).result with
  | .error e =>
      { trace := (mergeBranchLoop resultBranch worlds branches).trace,
        result := .error e }
  | .ok flags =>
      { trace := (mergeBranchLoop resultBranch worlds branches).trace,
        result := .ok
          { status := "ok",
            notes :=
              if flags.any id then
                "Merged " ++ toString flags.length
                  ++ " branches; conflicts were resolved via Codex where needed."
              else
                "Merged " ++ toString flags.length
                  ++ " branches without conflicts." } }

/-- Substring test used to state properties of the merge notes. -/
def containsSub (needle hay : List Char) : Bool :=
  (List.range (hay.length + 1)).any (fun i => needle.isPrefixOf (hay.drop i))

/-! ## Pipeline engine (`runDeterministicOrchestrator`)

The engine of the deterministic orchestrator, parameterised by the
behaviour of each `codexRunSubtask` call. Each subtask either returns a
parsed result with status `ok` or `failed`, or its output is unparseable, in
which case `codexRunSubtask` records a failed result and throws. Batch
members execute concurrently under `Promise.all`; all of them run to
completion, and the model fixes the schedule that processes them in list
order. -/

/-- Observable behaviour of one `codexRunSubtask` call. -/
inductive SubtaskOutcome where
  | parsedOk
  | parsedFailed
  | unparseable
  deriving DecidableEq, Repr

/-- Engine state threaded through subtask execution: the job status column,
the ids passed to `recordSubtaskStart` in order, and whether some
`codexRunSubtask` call threw. -/
structure EngineState where
  status : Option JobStatus
  started : List String
  threw : Bool
  deriving Repr

/-- One `codexRunSubtask` call: `recordSubtaskStart`, then
`recordSubtaskResult` with the parsed status, or — for unparseable output —
a failed `recordSubtaskResult` followed by a throw. -/
def runSubtaskModel (st : PlanSubtask) (o : SubtaskOutcome) (s : EngineState) :
    EngineState :=
  let s1 : EngineState :=
    { s with status := applyWrite s.status .subtaskStart,
             started := s.started ++ [st.id] }
  match o with
  | .parsedOk => { s1 with status := applyWrite s1.status (.subtaskResult true) }
  | .parsedFailed => { s1 with status := applyWrite s1.status (.subtaskResult false) }
  | .unparseable =>
      { s1 with status := applyWrite s1.status (.subtaskResult false), threw := true }

/-- One batch under `Promise.all`: every member runs; the batch rejects if
any member threw. -/
def runBatch (outcome : PlanSubtask → SubtaskOutcome)
    (batch : List PlanSubtask) (s : EngineState) : EngineState :=
  batch.foldl (fun acc st => runSubtaskModel st (outcome st) acc) s

/-- The batch loop of `runDeterministicOrchestrator`: `await Promise.all`
per batch; a rejected batch propagates the exception, so no later batch
starts. -/
def runBatchesLoop (outcome : PlanSubtask → SubtaskOutcome) :
    List (List PlanSubtask) → EngineState → EngineState
  | [], s => s
  | b :: rest, s =>
      if (runBatch outcome b s).threw then runBatch outcome b s
      else runBatchesLoop outcome rest (runBatch outcome b s)

/-- Final observable result of `runDeterministicOrchestrator`. -/
structure EngineResult where
  status : Option JobStatus
  started : List String
  mergeInvoked : Bool
  threw : Bool
  deriving Repr

/-- `runDeterministicOrchestrator(options)` reduced to its control flow:
plan (recording planner output), run the batches, and invoke
`codexMergeResults` unless a subtask threw (in which case the engine itself
throws before reaching the merge call). -/
def runDeterministicOrchestrator (plan : Plan)
    (outcome : PlanSubtask → SubtaskOutcome) : EngineResult :=
  { status := (runBatchesLoop outcome (buildBatches plan)
      ⟨applyWrite none .plannerOutput, [], false⟩).status,
    started := (runBatchesLoop outcome (buildBatches plan)
      ⟨applyWrite none .plannerOutput, [], false⟩).started,
    mergeInvoked := !(runBatchesLoop outcome (buildBatches plan)
      ⟨applyWrite none .plannerOutput, [], false⟩).threw,
    threw := (runBatchesLoop outcome (buildBatches plan)
      ⟨applyWrite none .plannerOutput, [], false⟩).threw }

/-- A batch containing a subtask whose output is unparseable. -/
def batchHasUnparseable (outcome : PlanSubtask → SubtaskOutcome)
    (b : List PlanSubtask) : Bool :=
  b.any (fun st => outcome st = .unparseable)

/-- Whether a merge event is a `git push`. -/
def isPushEvent : MergeEvent → Bool
  | .gitPush _ _ => true
  | _ => false

/-- Discriminator for the non-terminating outcome. -/
def ExtractOutcome.isHang : ExtractOutcome → Bool
  | .hang => true
  | _ => false

/-- Discriminator for a returned value. -/
def ExtractOutcome.isValue : ExtractOutcome → Bool
  | .value _ => true
  | _ => false

/-! # Theorems -/

/-! ## C2 — monotonic status -/

/-- C2 counterexample: `recordMergeResult` with a successful merge stores
`done`; a subsequent `recordSubtaskStart` overwrites it with `running`, a
strictly lower-priority status, contradicting the claim that such a write
leaves the status unchanged. -/
theorem C2_counterexample :
    runWrites [WriteOp.mergeResult false] = some JobStatus.done ∧
    runWrites [WriteOp.mergeResult false, WriteOp.subtaskStart]
      = some JobStatus.running ∧
    JobStatus.priority JobStatus.running < JobStatus.priority JobStatus.done := by
  decide

/-- C2 (amended): only `markJobStatus` enforces the priority order — for an
existing job it drops writes of strictly lower priority and applies the
rest — while the `record*` stage writes (`recordPlannerOutput`,
`recordSubtaskStart`, `recordSubtaskResult`, `recordMergeStart`,
`recordMergeResult`) set the job status to their stage's status
unconditionally, and can therefore lower it. -/
theorem C2_amended :
    (∀ c s : JobStatus, s.priority < c.priority →
      markJobStatus (some c) s = some c) ∧
    (∀ c s : JobStatus, c.priority ≤ s.priority →
      markJobStatus (some c) s = some s) ∧
    (∀ cur, applyWrite cur .plannerOutput = some .planning) ∧
    (∀ cur, applyWrite cur .subtaskStart = some .running) ∧
    (∀ cur ok, applyWrite cur (.subtaskResult ok)
      = some (if ok then .running else .failed)) ∧
    (∀ cur, applyWrite cur .mergeStart = some .merging) ∧
    (∀ cur nr, applyWrite cur (.mergeResult nr)
      = some (if nr then .needs_manual_review else .done)) := by
  refine ⟨?_, ?_, ?_, ?_, ?_, ?_, ?_⟩
  · intro c s h
    simp [markJobStatus, h]
  · intro c s h
    simp [markJobStatus, Nat.not_lt_of_le h, upsertJobStatus]
  · intro cur; rfl
  · intro cur; rfl
  · intro cur ok; cases ok <;> rfl
  · intro cur; rfl
  · intro cur nr; cases nr <;> rfl

/-- C2 witness: the amended theorem at the concrete lowering write of the
counterexample — `markJobStatus` keeps `done` against `running`. -/
theorem C2_amended_witness :
    markJobStatus (some JobStatus.done) JobStatus.running
      = some JobStatus.done :=
  C2_amended.1 JobStatus.done JobStatus.running (by decide)

/-! ## C3 — terminal freeze -/

/-- C3 counterexample: a job stored as `done` (a terminal status) is moved
back to `running` by a later `recordSubtaskStart` write, contradicting the
claim that no later write changes a terminal status. -/
theorem C3_counterexample :
    JobStatus.done.isTerminal = true ∧
    applyWrite (some JobStatus.done) WriteOp.subtaskStart
      = some JobStatus.running ∧
    JobStatus.running ≠ JobStatus.done := by
  decide

/-- C3 (amended): once a job's status is terminal, `ensureTerminalJobStatus`
leaves it unchanged and `markJobStatus` keeps it terminal, moving it only to
an equal or higher-priority terminal status (`failed` in particular is
frozen under `markJobStatus`); the `record*` stage writes, however, replace
a terminal status with their stage status (for example `recordSubtaskStart`
turns `done` back into `running`). -/
theorem C3_amended :
    (∀ t fb : JobStatus, t.isTerminal = true →
      ensureTerminalJobStatus (some t) fb = some t) ∧
    (∀ s : JobStatus, markJobStatus (some JobStatus.failed) s
      = some JobStatus.failed) ∧
    (∀ t s : JobStatus, t.isTerminal = true →
      ∃ u, markJobStatus (some t) s = some u ∧
        t.priority ≤ u.priority ∧ u.isTerminal = true) ∧
    applyWrite (some JobStatus.done) WriteOp.subtaskStart
      = some JobStatus.running := by
  refine ⟨?_, ?_, ?_, rfl⟩
  · intro t fb h
    simp [ensureTerminalJobStatus, h]
  · decide
  · decide

/-- C3 witness: the amended theorem instantiated at a `done` job — it stays
`done` under `ensureTerminalJobStatus`, whatever the fallback. -/
theorem C3_amended_witness :
    ensureTerminalJobStatus (some JobStatus.done) JobStatus.failed
      = some JobStatus.done :=
  C3_amended.1 JobStatus.done JobStatus.failed (by decide)

/-! ## C8 — bounded tail-preserving capture -/

/-- One `appendWithLimit` step preserves the retained-suffix invariant. -/
theorem appendWithLimit_drop (t c : List Char) (limit : Nat) (h : 0 < limit) :
    appendWithLimit (t.drop (t.length - limit)) c limit
      = (t ++ c).drop ((t ++ c).length - limit) := by
  have hl : ¬ limit = 0 := by omega
  have hm : t.length - limit ≤ t.length := Nat.sub_le _ _
  have hsplit : t.drop (t.length - limit) ++ c
      = (t ++ c).drop (t.length - limit) :=
    (List.drop_append_of_le_length hm).symm
  rw [appendWithLimit, if_neg hl]
  simp only [hsplit]
  by_cases hcase :
      ((t ++ c).drop (t.length - limit)).length ≤ limit
  · rw [if_pos hcase]
    have : (t ++ c).length - limit = t.length - limit := by
      simp only [List.length_drop, List.length_append] at hcase ⊢
      omega
    rw [this]
  · rw [if_neg hcase]
    rw [List.drop_drop]
    congr 1
    simp only [List.length_drop, List.length_append] at hcase ⊢
    omega

/-- Folding `appendWithLimit` from any retained suffix extends the invariant
over the remaining chunks. -/
theorem retainedCapture_invariant (limit : Nat) (h : 0 < limit) :
    ∀ (chunks : List (List Char)) (t : List Char),
      chunks.foldl (fun b c => appendWithLimit b c limit)
          (t.drop (t.length - limit))
        = (t ++ chunks.flatten).drop ((t ++ chunks.flatten).length - limit) := by
  intro chunks
  induction chunks with
  | nil => intro t; simp
  | cons c rest ih =>
      intro t
      have step := appendWithLimit_drop t c limit h
      calc (c :: rest).foldl (fun b c => appendWithLimit b c limit)
              (t.drop (t.length - limit))
          = rest.foldl (fun b c => appendWithLimit b c limit)
              ((t ++ c).drop ((t ++ c).length - limit)) := by
            simp [List.foldl_cons, step]
        _ = ((t ++ c) ++ rest.flatten).drop
              (((t ++ c) ++ rest.flatten).length - limit) := ih (t ++ c)
        _ = (t ++ (c :: rest).flatten).drop
              ((t ++ (c :: rest).flatten).length - limit) := by
            simp [List.flatten_cons, List.append_assoc]

/-- C8: after processing every chunk, the retained capture equals the whole
concatenation when it fits within the limit, and otherwise exactly the last
`limit` characters of the concatenation (oldest characters discarded, tail
preserved). -/
theorem C8_retained_capture (chunks : List (List Char)) (limit : Nat)
    (h : 0 < limit) :
    (chunks.flatten.length ≤ limit →
      retainedCapture chunks limit = chunks.flatten) ∧
    (limit < chunks.flatten.length →
      retainedCapture chunks limit
        = chunks.flatten.drop (chunks.flatten.length - limit)) := by
  have base := retainedCapture_invariant limit h chunks []
  simp only [List.length_nil, Nat.zero_sub, List.drop_zero, List.nil_append] at base
  constructor
  · intro hle
    have : chunks.flatten.length - limit = 0 := by omega
    rw [retainedCapture, base, this, List.drop_zero]
  · intro _
    rw [retainedCapture, base]

/-- C8 witness: the bound at work on concrete chunks — limit 4 keeps exactly
the last four characters of the six delivered. -/
theorem C8_retained_capture_witness :
    retainedCapture [['a','b'],['c','d','e'],['f']] 4 = ['c','d','e','f'] := by
  have h := (C8_retained_capture [['a','b'],['c','d','e'],['f']] 4 (by decide)).2
  exact (h (by decide)).trans (by decide)

/-! ## C9 — branch-name sanitiser -/

/-- The head surviving `dropWhile` does not satisfy the dropped predicate. -/
theorem head_dropWhile_false (p : Char → Bool) (l : List Char) (c : Char)
    (h : (l.dropWhile p).head? = some c) : p c = false := by
  induction l with
  | nil => simp [List.dropWhile] at h
  | cons a rest ih =>
      by_cases hp : p a
      · rw [List.dropWhile_cons, if_pos hp] at h
        exact ih h
      · rw [List.dropWhile_cons, if_neg hp] at h
        simp only [List.head?_cons, Option.some.injEq] at h
        subst h
        exact Bool.eq_false_iff.mpr hp

/-- A non-empty suffix has the same last element as the whole list. -/
theorem getLast?_of_suffix {l₁ l₂ : List Char} (h : l₁ <:+ l₂)
    (hne : l₁ ≠ []) : l₁.getLast? = l₂.getLast? := by
  obtain ⟨t, rfl⟩ := h
  rw [List.getLast?_append]
  cases e : l₁.getLast? with
  | none => exact absurd (List.getLast?_eq_none_iff.mp e) hne
  | some a => rfl

/-- Characters surviving `replaceBadRunsAux` all lie in the branch class
(the replacement dash itself is in the class). -/
theorem all_replaceBadRunsAux (b : Bool) (l : List Char) :
    (replaceBadRunsAux b l).all isBranchChar = true := by
  induction l generalizing b with
  | nil => rfl
  | cons c rest ih =>
      rw [replaceBadRunsAux]
      by_cases hc : isBranchChar c = true
      · rw [if_pos hc]
        simp [hc, ih false]
      · rw [if_neg hc]
        cases b
        · have hdash : isBranchChar '-' = true := by decide
          simp [hdash, ih true]
        · exact ih true

/-- `trimDashes` only removes characters, so a universally satisfied
predicate is preserved. -/
theorem all_trimDashes (p : Char → Bool) (l : List Char)
    (h : l.all p = true) : (trimDashes l).all p = true := by
  rw [List.all_eq_true] at h ⊢
  intro x hx
  apply h
  rw [trimDashes] at hx
  rw [List.mem_reverse] at hx
  have hx2 := (List.dropWhile_sublist _).subset hx
  rw [List.mem_reverse] at hx2
  exact (List.dropWhile_sublist _).subset hx2

/-- C9 counterexample: the sanitiser never strips dots, so `".foo."` is
returned unchanged, with both a leading and a trailing `'.'`, contradicting
the claim that produced names have no leading or trailing `'.'`. -/
theorem C9_counterexample :
    sanitizeBranchName ".foo." "fb" = ".foo." ∧
    (sanitizeBranchName ".foo." "fb").data.head? = some '.' ∧
    (sanitizeBranchName ".foo." "fb").data.getLast? = some '.' := by
  decide

/-- C9 (amended): the sanitiser replaces each maximal run of characters
outside the branch class with `'-'`, trims leading and trailing `'-'`, and
substitutes the supplied fallback when the result is empty; consequently
every non-fallback name it produces is non-empty, consists only of branch
class characters, and has no leading or trailing `'-'` — but a leading or
trailing `'.'` remains possible. -/
theorem C9_amended (name fallback : String) :
    sanitizeBranchName name fallback = fallback ∨
    (sanitizeBranchName name fallback ≠ "" ∧
     (sanitizeBranchName name fallback).data.all isBranchChar = true ∧
     (sanitizeBranchName name fallback).data.head? ≠ some '-' ∧
     (sanitizeBranchName name fallback).data.getLast? ≠ some '-') := by
  rw [sanitizeBranchName]
  by_cases hempty : (trimDashes (replaceBadRuns name.data)).isEmpty
  · left
    rw [if_pos hempty]
  · right
    rw [if_neg hempty]
    have hne : trimDashes (replaceBadRuns name.data) ≠ [] := by
      intro hnil
      rw [hnil] at hempty
      exact hempty rfl
    have hdata : (String.mk (trimDashes (replaceBadRuns name.data))).data
        = trimDashes (replaceBadRuns name.data) := rfl
    refine ⟨?_, ?_, ?_, ?_⟩
    · intro hstr
      have : (String.mk (trimDashes (replaceBadRuns name.data))).data = [] := by
        rw [hstr]
      rw [hdata] at this
      exact hne this
    · rw [hdata]
      exact all_trimDashes _ _ (all_replaceBadRunsAux false name.data)
    · rw [hdata]
      intro hhead
      set A := (replaceBadRuns name.data).dropWhile (fun c => c = '-') with hA
      set B := A.reverse.dropWhile (fun c => c = '-') with hB
      have htd : trimDashes (replaceBadRuns name.data) = B.reverse := rfl
      rw [htd] at hhead hne
      have hBne : B ≠ [] := by
        intro hBnil
        rw [hBnil] at hne
        exact hne rfl
      have h1 : B.reverse.head? = B.getLast? := List.head?_reverse B
      have h2 : B.getLast? = A.reverse.getLast? :=
        getLast?_of_suffix (List.dropWhile_suffix _) hBne
      have h3 : A.reverse.getLast? = A.head? := List.getLast?_reverse A
      have : A.head? = some '-' := by
        rw [← h3, ← h2, ← h1, hhead]
      have := head_dropWhile_false (fun c => c = '-') (replaceBadRuns name.data) '-' this
      simp at this
    · rw [hdata]
      intro hlast
      set A := (replaceBadRuns name.data).dropWhile (fun c => c = '-') with hA
      set B := A.reverse.dropWhile (fun c => c = '-') with hB
      have htd : trimDashes (replaceBadRuns name.data) = B.reverse := rfl
      rw [htd] at hlast
      have h1 : B.reverse.getLast? = B.head? := List.getLast?_reverse B
      have : B.head? = some '-' := by rw [← h1, hlast]
      have := head_dropWhile_false (fun c => c = '-') A.reverse '-' this
      simp at this

/-- C9 witness: the amended theorem at a name with a disallowed space — the
sanitised name is made of branch-class characters only. -/
theorem C9_amended_witness :
    (sanitizeBranchName "a b" "fb").data.all isBranchChar = true := by
  rcases C9_amended "a b" "fb" with h | h
  · exact absurd h (by decide)
  · exact h.2.1

/-! ## C4 and C5 — merge flow -/

/-- Whether a merge event is a `git commit`. -/
def isCommitEvent : MergeEvent → Bool
  | .gitCommit _ => true
  | _ => false

/-- The conflict-resolution path never pushes. -/
theorem resolveConflicts_trace_no_push (b : String) (w : BranchWorld) :
    (resolveConflictsWithCodex b w).trace.all (fun e => !isPushEvent e) = true := by
  rw [resolveConflictsWithCodex]
  split
  · rfl
  · split
    · rfl
    · split <;> rfl

/-- The conflict step's trace is empty or the conflict-resolution trace. -/
theorem conflictStep_trace_cases (b : String) (w : BranchWorld) :
    (conflictResolutionStep b w).trace = [] ∨
    (conflictResolutionStep b w).trace = (resolveConflictsWithCodex b w).trace := by
  rw [conflictResolutionStep]
  split
  · exact Or.inl rfl
  · split
    · exact Or.inr rfl
    · split
      · exact Or.inr rfl
      · exact Or.inr rfl

/-- A single branch merge never pushes. -/
theorem mergeBranch_trace_no_push (b r : String) (w : BranchWorld) :
    (mergeBranchIntoResult b r w).trace.all (fun e => !isPushEvent e) = true := by
  have hcs : (conflictResolutionStep b w).trace.all (fun e => !isPushEvent e) = true := by
    rcases conflictStep_trace_cases b w with h | h <;> rw [h]
    · rfl
    · exact resolveConflicts_trace_no_push b w
  rw [mergeBranchIntoResult]
  split
  · rfl
  · split
    · dsimp only
      rw [List.all_cons, hcs]
      rfl
    · dsimp only
      rw [List.all_append, List.all_cons, hcs]
      rfl

/-- The sequential branch loop never pushes. -/
theorem mergeLoop_trace_no_push (r : String) (worlds : String → BranchWorld)
    (bs : List String) :
    (mergeBranchLoop r worlds bs).trace.all (fun e => !isPushEvent e) = true := by
  induction bs with
  | nil => rfl
  | cons b rest ih =>
      have hb := mergeBranch_trace_no_push b r (worlds b)
      rw [mergeBranchLoop]
      split
      · exact hb
      · split
        · simp [List.all_append, hb, ih]
        · simp [List.all_append, hb, ih]

/-- `codexMergeResults` only reports the loop's trace. -/
theorem codexMergeResults_trace_eq (branches : List String) (r : String)
    (worlds : String → BranchWorld) :
    (codexMergeResults branches r worlds).trace
      = (mergeBranchLoop r worlds branches).trace := by
  rw [codexMergeResults]
  split <;> rfl

/-- C5 (code bug): the merge stage in `codexMergeResultsTool.ts` has no
push-result option (`MergeInputSchema` lacks the field) and never issues any
`git push`, for any input and any behaviour of the worlds; in the clean
single-branch scenario of the repository's own push test, the returned
notes are `"Merged 1 branches without conflicts."`, which does not contain
the substring `"pushed"`. -/
theorem C5_merge_never_pushes :
    (∀ (branches : List String) (resultBranch : String)
        (worlds : String → BranchWorld),
      (codexMergeResults branches resultBranch worlds).trace.all
        (fun e => !isPushEvent e) = true) ∧
    (codexMergeResults ["feature"] "result-job-push"
        (fun _ => ⟨true, [], true, "gitdir: /g\n", true, "gitdir: /g\n", []⟩)).okValue
      = some ⟨"ok", "Merged 1 branches without conflicts."⟩ ∧
    containsSub "pushed".data "Merged 1 branches without conflicts.".data = false := by
  refine ⟨?_, ?_, ?_⟩
  · intro branches r worlds
    rw [codexMergeResults_trace_eq]
    exact mergeLoop_trace_no_push r worlds branches
  · decide
  · decide

/-- A conflicted branch world whose `.git` pointer content loses its
trailing newline during the Worker CLI run: changed bytes, equal after
trimming. -/
def pointerWorld : BranchWorld :=
  { mergeExitOk := true, conflictFiles := ["conflict.txt"],
    pointerBeforeIsFile := true, pointerBefore := "gitdir: /x\n",
    pointerAfterIsFile := true, pointerAfter := "gitdir: /x",
    remainingAfterCodex := [] }

/-- C4 counterexample: the pointer contents before and after are not
byte-equal (the trailing newline is gone), yet the merge succeeds and
commits, because `assertGitPointerUnchanged` compares the contents only
after trimming — contradicting "fails if and only if the two contents are
not byte-equal". -/
theorem C4_counterexample :
    pointerWorld.pointerAfter ≠ pointerWorld.pointerBefore ∧
    (mergeBranchIntoResult "feature" "result-j" pointerWorld).okValue = some true ∧
    (mergeBranchIntoResult "feature" "result-j" pointerWorld).trace.any
      isCommitEvent = true := by
  decide

/-- C4 (amended): in the conflict-resolution path the `.git` pointer is read
before the Worker CLI is invoked and re-read after it returns, and the merge
fails — aborting the whole merge with no commit for that branch — if and
only if the re-read `.git` is no longer a regular file or the two contents
differ after trimming surrounding whitespace; byte-equal contents always
pass, but byte-different contents that agree after trimming also pass. -/
theorem C4_pointer_guard (b r : String) (w : BranchWorld)
    (hc : w.conflictFiles.isEmpty = false)
    (hbf : w.pointerBeforeIsFile = true)
    (hrem : w.remainingAfterCodex.isEmpty = true) :
    ((mergeBranchIntoResult b r w).isOk = true ↔
      (w.pointerAfterIsFile = true ∧
       trimChars w.pointerAfter.data = trimChars w.pointerBefore.data)) ∧
    ((mergeBranchIntoResult b r w).trace.take 3 =
      [MergeEvent.gitMerge b, MergeEvent.readPointer w.pointerBefore,
       MergeEvent.codexExec b]) ∧
    ((mergeBranchIntoResult b r w).isOk = false →
      (mergeBranchIntoResult b r w).trace.all (fun e => !isCommitEvent e) = true) ∧
    (w.pointerAfterIsFile = true → w.pointerAfter = w.pointerBefore →
      (mergeBranchIntoResult b r w).isOk = true) ∧
    ((mergeBranchIntoResult b r w).isOk = false →
      ∀ (rest : List String) (worlds : String → BranchWorld), worlds b = w →
        (codexMergeResults (b :: rest) r worlds).isOk = false) := by
  have hcond : (!w.mergeExitOk && w.conflictFiles.isEmpty) = false := by
    rw [hc, Bool.and_false]
  by_cases haf : w.pointerAfterIsFile = true
  · by_cases htr : trimChars w.pointerAfter.data = trimChars w.pointerBefore.data
    · -- pointer intact modulo trim: merge succeeds and commits
      have hresolve : resolveConflictsWithCodex b w =
          { trace := [MergeEvent.readPointer w.pointerBefore, MergeEvent.codexExec b,
                      MergeEvent.readPointer w.pointerAfter],
            result := .ok () } := by
        rw [resolveConflictsWithCodex, hbf, haf]
        simp [htr]
      have hcs : conflictResolutionStep b w =
          { trace := [MergeEvent.readPointer w.pointerBefore, MergeEvent.codexExec b,
                      MergeEvent.readPointer w.pointerAfter],
            result := .ok () } := by
        rw [conflictResolutionStep, hc, hresolve, hrem]
        rfl
      have hmb : mergeBranchIntoResult b r w =
          { trace := [MergeEvent.gitMerge b, MergeEvent.readPointer w.pointerBefore,
                      MergeEvent.codexExec b, MergeEvent.readPointer w.pointerAfter,
                      MergeEvent.gitAddAll,
                      MergeEvent.gitCommit
                        (if !(!w.conflictFiles.isEmpty || !w.mergeExitOk) then
                           "Merge branch " ++ b ++ " into " ++ r
                         else "Merge branch " ++ b ++ " (conflicts resolved via Codex)")],
            result := .ok (!w.conflictFiles.isEmpty || !w.mergeExitOk) } := by
        rw [mergeBranchIntoResult, hcond, hcs]
        rfl
      rw [hmb]
      refine ⟨?_, rfl, ?_, ?_, ?_⟩
      · simp [MergeStep.isOk, MergeStep.okValue, haf, htr]
      · intro hfalse
        simp [MergeStep.isOk, MergeStep.okValue] at hfalse
      · intro _ _
        rfl
      · intro hfalse
        simp [MergeStep.isOk, MergeStep.okValue] at hfalse
    · -- pointer tampered (trim-different): abort, no commit
      have hresolve : resolveConflictsWithCodex b w =
          { trace := [MergeEvent.readPointer w.pointerBefore, MergeEvent.codexExec b,
                      MergeEvent.readPointer w.pointerAfter],
            result := .error ".git pointer was modified during Codex run" } := by
        rw [resolveConflictsWithCodex, hbf, haf]
        simp [htr]
      have hcs : conflictResolutionStep b w =
          { trace := [MergeEvent.readPointer w.pointerBefore, MergeEvent.codexExec b,
                      MergeEvent.readPointer w.pointerAfter],
            result := .error ".git pointer was modified during Codex run" } := by
        rw [conflictResolutionStep, hc, hresolve]
        rfl
      have hmb : mergeBranchIntoResult b r w =
          { trace := [MergeEvent.gitMerge b, MergeEvent.readPointer w.pointerBefore,
                      MergeEvent.codexExec b, MergeEvent.readPointer w.pointerAfter],
            result := .error ".git pointer was modified during Codex run" } := by
        rw [mergeBranchIntoResult, hcond, hcs]
        rfl
      rw [hmb]
      refine ⟨?_, rfl, ?_, ?_, ?_⟩
      · simp [MergeStep.isOk, MergeStep.okValue, htr]
      · intro _
        rfl
      · intro _ hbytes
        exact absurd (by rw [hbytes]) htr
      · intro _ rest worlds hwb
        rw [codexMergeResults]
        have hloop : mergeBranchLoop r worlds (b :: rest) =
            { trace := [MergeEvent.gitMerge b, MergeEvent.readPointer w.pointerBefore,
                        MergeEvent.codexExec b, MergeEvent.readPointer w.pointerAfter],
              result := .error ".git pointer was modified during Codex run" } := by
          rw [mergeBranchLoop, hwb, hmb]
        rw [hloop]
        rfl
  · -- .git no longer a regular file: abort, no commit
    have haf' : w.pointerAfterIsFile = false := by
      cases h : w.pointerAfterIsFile
      · rfl
      · exact absurd h haf
    have hresolve : resolveConflictsWithCodex b w =
        { trace := [MergeEvent.readPointer w.pointerBefore, MergeEvent.codexExec b],
          result := .error ".git in merge worktree was modified (not a file anymore)" } := by
      rw [resolveConflictsWithCodex, hbf, haf']
      rfl
    have hcs : conflictResolutionStep b w =
        { trace := [MergeEvent.readPointer w.pointerBefore, MergeEvent.codexExec b],
          result := .error ".git in merge worktree was modified (not a file anymore)" } := by
      rw [conflictResolutionStep, hc, hresolve]
      rfl
    have hmb : mergeBranchIntoResult b r w =
        { trace := [MergeEvent.gitMerge b, MergeEvent.readPointer w.pointerBefore,
                    MergeEvent.codexExec b],
          result := .error ".git in merge worktree was modified (not a file anymore)" } := by
      rw [mergeBranchIntoResult, hcond, hcs]
      rfl
    rw [hmb]
    refine ⟨?_, rfl, ?_, ?_, ?_⟩
    · simp [MergeStep.isOk, MergeStep.okValue, haf']
    · intro _
      rfl
    · intro h
      exact absurd h haf
    · intro _ rest worlds hwb
      rw [codexMergeResults]
      have hloop : mergeBranchLoop r worlds (b :: rest) =
          { trace := [MergeEvent.gitMerge b, MergeEvent.readPointer w.pointerBefore,
                      MergeEvent.codexExec b],
            result := .error ".git in merge worktree was modified (not a file anymore)" } := by
        rw [mergeBranchLoop, hwb, hmb]
      rw [hloop]
      rfl

/-- C4 witness: the pointer guard at the counterexample world — conflicts
present, pointer still a file and trim-equal, so the branch merge
succeeds. -/
theorem C4_pointer_guard_witness :
    (mergeBranchIntoResult "feature" "result-j" pointerWorld).isOk = true := by
  have h := C4_pointer_guard "feature" "result-j" pointerWorld rfl rfl rfl
  exact h.1.mpr ⟨rfl, by decide⟩

/-! ## C1 — failure short-circuiting in the engine -/

/-- One subtask always finishes with its result's status upserted. -/
theorem runSubtask_status (st : PlanSubtask) (o : SubtaskOutcome)
    (s : EngineState) :
    (runSubtaskModel st o s).status
      = some (if o = .parsedOk then JobStatus.running else JobStatus.failed) := by
  cases o <;> rfl

/-- One subtask appends exactly its id to the started list. -/
theorem runSubtask_started (st : PlanSubtask) (o : SubtaskOutcome)
    (s : EngineState) :
    (runSubtaskModel st o s).started = s.started ++ [st.id] := by
  cases o <;> rfl

/-- One subtask throws exactly when its output is unparseable. -/
theorem runSubtask_threw (st : PlanSubtask) (o : SubtaskOutcome)
    (s : EngineState) :
    (runSubtaskModel st o s).threw = (s.threw || o = .unparseable) := by
  cases o <;> simp [runSubtaskModel]

/-- A batch throws exactly when some member's output is unparseable. -/
theorem runBatch_threw (o : PlanSubtask → SubtaskOutcome)
    (b : List PlanSubtask) (s : EngineState) :
    (runBatch o b s).threw = (s.threw || batchHasUnparseable o b) := by
  induction b generalizing s with
  | nil => simp [runBatch, batchHasUnparseable]
  | cons st rest ih =>
      rw [runBatch, List.foldl_cons]
      have := ih (runSubtaskModel st (o st) s)
      rw [runBatch] at this
      rw [this, runSubtask_threw]
      simp [batchHasUnparseable, List.any_cons, Bool.or_assoc]

/-- A batch starts every member, in order. -/
theorem runBatch_started (o : PlanSubtask → SubtaskOutcome)
    (b : List PlanSubtask) (s : EngineState) :
    (runBatch o b s).started = s.started ++ b.map (·.id) := by
  induction b generalizing s with
  | nil => simp [runBatch]
  | cons st rest ih =>
      rw [runBatch, List.foldl_cons]
      have := ih (runSubtaskModel st (o st) s)
      rw [runBatch] at this
      rw [this, runSubtask_started]
      simp

/-- After a batch, the job status carries the last member's result. -/
theorem runBatch_status (o : PlanSubtask → SubtaskOutcome)
    (b : List PlanSubtask) (s : EngineState) :
    (runBatch o b s).status
      = match b.getLast? with
        | none => s.status
        | some st => some (if o st = .parsedOk then JobStatus.running
                           else JobStatus.failed) := by
  induction b generalizing s with
  | nil => simp [runBatch]
  | cons st rest ih =>
      rw [runBatch, List.foldl_cons]
      have hstep := ih (runSubtaskModel st (o st) s)
      rw [runBatch] at hstep
      cases rest with
      | nil =>
          simp only [List.foldl_nil] at hstep ⊢
          rw [runSubtask_status]
          rfl
      | cons b2 r2 =>
          rw [List.getLast?_cons_cons]
          cases hlast : (b2 :: r2).getLast? with
          | none =>
              exact absurd (List.getLast?_eq_none_iff.mp hlast) (List.cons_ne_nil b2 r2)
          | some lt =>
              rw [hlast] at hstep
              exact hstep

/-- Characterisation of the batch loop: it throws exactly when some batch
has an unparseable member, processes exactly the batches up to and
including the first such batch, and leaves the status of the last executed
subtask. -/
theorem runBatchesLoop_characterization (o : PlanSubtask → SubtaskOutcome)
    (bs : List (List PlanSubtask)) :
    ∀ s : EngineState, s.threw = false →
    ((runBatchesLoop o bs s).threw = bs.any (batchHasUnparseable o)) ∧
    ((runBatchesLoop o bs s).started = s.started ++
      (((bs.take (bs.findIdx (batchHasUnparseable o) + 1)).flatten).map (·.id))) ∧
    ((runBatchesLoop o bs s).status
      = match ((bs.take (bs.findIdx (batchHasUnparseable o) + 1)).flatten).getLast? with
        | none => s.status
        | some st => some (if o st = .parsedOk then JobStatus.running
                           else JobStatus.failed)) := by
  induction bs with
  | nil =>
      intro s hs
      refine ⟨by simpa [runBatchesLoop] using hs, by simp [runBatchesLoop], ?_⟩
      simp [runBatchesLoop]
  | cons b rest ih =>
      intro s hs
      cases hbad : batchHasUnparseable o b with
      | true =>
          have hthrew : (runBatch o b s).threw = true := by
            rw [runBatch_threw, hs, hbad]
            rfl
          have hloop : runBatchesLoop o (b :: rest) s = runBatch o b s := by
            rw [runBatchesLoop, if_pos hthrew]
          have hidx : (b :: rest).findIdx (batchHasUnparseable o) = 0 := by
            rw [List.findIdx_cons, hbad]
            rfl
          rw [hloop, hidx]
          refine ⟨?_, ?_, ?_⟩
          · rw [hthrew, List.any_cons, hbad]
            rfl
          · rw [runBatch_started]
            simp
          · rw [runBatch_status]
            simp
      | false =>
          have hthrew : (runBatch o b s).threw = false := by
            rw [runBatch_threw, hs, hbad]
            rfl
          have hloop : runBatchesLoop o (b :: rest) s
              = runBatchesLoop o rest (runBatch o b s) := by
            rw [runBatchesLoop, if_neg (by rw [hthrew]; exact Bool.false_ne_true)]
          have hidx : (b :: rest).findIdx (batchHasUnparseable o)
              = rest.findIdx (batchHasUnparseable o) + 1 := by
            rw [List.findIdx_cons, hbad]
            rfl
          obtain ⟨ih1, ih2, ih3⟩ := ih (runBatch o b s) hthrew
          rw [hloop, hidx]
          refine ⟨?_, ?_, ?_⟩
          · rw [ih1, List.any_cons, hbad]
            rfl
          · rw [ih2, runBatch_started, List.take_succ_cons, List.flatten_cons,
                List.map_append, List.append_assoc]
          · rw [ih3, List.take_succ_cons, List.flatten_cons, List.getLast?_append,
                runBatch_status]
            cases hx : ((rest.take (rest.findIdx (batchHasUnparseable o) + 1)).flatten).getLast? with
            | none => rfl
            | some lt => rfl

/-- The two-batch sequential plan used to exercise the engine's failure
handling: the first subtask reports a parsed failure, the second succeeds. -/
def c1Plan : Plan :=
  { can_parallelize := false,
    subtasks := [⟨"s1", "t1", "d1", ""⟩, ⟨"s2", "t2", "d2", ""⟩] }

/-- Outcome function for `c1Plan`: subtask `s1` returns a parsed result with
status `failed`; every other subtask parses with status `ok`. -/
def c1Outcome : PlanSubtask → SubtaskOutcome :=
  fun st => if st.id = "s1" then .parsedFailed else .parsedOk

/-- C1 counterexample: `s1` in the first batch fails (its parsed result has
status `failed`), yet the engine starts the second batch, invokes the merge
stage, and the final job status is `running`, not `failed` — contradicting
"does not start any subsequent batch, marks the job failed, and never
invokes the merge stage". -/
theorem C1_counterexample :
    (buildBatches c1Plan).length = 2 ∧
    c1Outcome ⟨"s1", "t1", "d1", ""⟩ = .parsedFailed ∧
    (runDeterministicOrchestrator c1Plan c1Outcome).mergeInvoked = true ∧
    (runDeterministicOrchestrator c1Plan c1Outcome).started = ["s1", "s2"] ∧
    (runDeterministicOrchestrator c1Plan c1Outcome).status
      = some JobStatus.running := by
  decide

/-- C1 (amended): only an unparseable subtask output stops the pipeline —
the engine then finishes the failing subtask's batch, starts no subsequent
batch and never invokes the merge stage. A subtask whose output parses with
status `failed` is recorded as failed (setting the job status to `failed`
at that moment), but the engine continues with the remaining batches — a
later subtask's result overwrites the job status — and still invokes the
merge stage. Precisely: the engine throws iff some batch has an unparseable
member, merge is invoked iff none has, the started subtasks are exactly the
batches up to and including the first throwing batch, and the final status
is the planner's `planning` when nothing ran, else `running`/`failed`
according to the last executed subtask's parsed status. -/
theorem C1_engine_failure_handling (plan : Plan)
    (outcome : PlanSubtask → SubtaskOutcome) :
    ((runDeterministicOrchestrator plan outcome).threw
      = (buildBatches plan).any (batchHasUnparseable outcome)) ∧
    ((runDeterministicOrchestrator plan outcome).mergeInvoked
      = !((buildBatches plan).any (batchHasUnparseable outcome))) ∧
    ((runDeterministicOrchestrator plan outcome).started
      = ((((buildBatches plan).take
            ((buildBatches plan).findIdx (batchHasUnparseable outcome) + 1)).flatten).map (·.id))) ∧
    ((runDeterministicOrchestrator plan outcome).status
      = match (((buildBatches plan).take
            ((buildBatches plan).findIdx (batchHasUnparseable outcome) + 1)).flatten).getLast? with
        | none => some JobStatus.planning
        | some st => some (if outcome st = .parsedOk then JobStatus.running
                           else JobStatus.failed)) := by
  obtain ⟨h1, h2, h3⟩ := runBatchesLoop_characterization outcome (buildBatches plan)
    ⟨applyWrite none .plannerOutput, [], false⟩ rfl
  refine ⟨h1, ?_, ?_, ?_⟩
  · show (!(runBatchesLoop outcome (buildBatches plan)
      ⟨applyWrite none .plannerOutput, [], false⟩).threw) = _
    rw [h1]
  · show (runBatchesLoop outcome (buildBatches plan)
      ⟨applyWrite none .plannerOutput, [], false⟩).started = _
    simpa using h2
  · show (runBatchesLoop outcome (buildBatches plan)
      ⟨applyWrite none .plannerOutput, [], false⟩).status = _
    exact h3

/-! ## C7 — batch grouping -/

/-- `List.contains` decides membership. -/
theorem contains_iff_mem (l : List String) (a : String) :
    l.contains a = true ↔ a ∈ l :=
  List.elem_iff

/-- `dedupKeepFirst` over a snoc. -/
theorem dedupKeepFirst_concat (l : List String) (a : String) :
    dedupKeepFirst (l ++ [a])
      = if (dedupKeepFirst l).contains a then dedupKeepFirst l
        else dedupKeepFirst l ++ [a] := by
  rw [dedupKeepFirst, List.foldl_append]
  rfl

/-- Deduplication preserves membership. -/
theorem mem_dedupKeepFirst (l : List String) :
    ∀ k, k ∈ dedupKeepFirst l ↔ k ∈ l := by
  induction l using List.reverseRecOn with
  | nil => intro k; simp [dedupKeepFirst]
  | append_singleton l' a ih =>
      intro k
      rw [dedupKeepFirst_concat]
      by_cases hc : (dedupKeepFirst l').contains a = true
      · rw [if_pos hc]
        have ha : a ∈ l' := (ih a).mp ((contains_iff_mem (dedupKeepFirst l') a).mp hc)
        rw [ih k, List.mem_append, List.mem_singleton]
        constructor
        · exact Or.inl
        · rintro (h | rfl)
          · exact h
          · exact ha
      · rw [if_neg hc]
        simp [ih k, List.mem_append]

/-- Deduplication yields a duplicate-free list. -/
theorem nodup_dedupKeepFirst (l : List String) : (dedupKeepFirst l).Nodup := by
  induction l using List.reverseRecOn with
  | nil => exact List.nodup_nil
  | append_singleton l' a ih =>
      rw [dedupKeepFirst_concat]
      by_cases hc : (dedupKeepFirst l').contains a = true
      · rw [if_pos hc]
        exact ih
      · rw [if_neg hc]
        rw [List.nodup_append]
        refine ⟨ih, List.nodup_singleton a, ?_⟩
        intro x hx hx2
        rw [List.mem_singleton] at hx2
        subst hx2
        exact hc ((contains_iff_mem _ _).mpr hx)

/-- The ordered-association fold of `buildBatches` computes exactly the
spec's grouping: first-appearance keys, each paired with the subtasks
carrying that key in order. -/
theorem insertFold_spec (ks : List (String × PlanSubtask)) :
    ks.foldl (fun acc p => insertIntoBatches acc p.1 p.2) []
      = (dedupKeepFirst (ks.map (·.1))).map
          (fun k => (k, (ks.filter (fun q => q.1 = k)).map (·.2))) := by
  induction ks using List.reverseRecOn with
  | nil => rfl
  | append_singleton l p ih =>
      rw [List.foldl_append, List.foldl_cons, List.foldl_nil, ih]
      have hmapfst : (l ++ [p]).map (fun q : String × PlanSubtask => q.1)
          = l.map (·.1) ++ [p.1] := by
        rw [List.map_append]
        rfl
      rw [hmapfst, dedupKeepFirst_concat]
      have hany : ((dedupKeepFirst (l.map (·.1))).map
            (fun k => (k, (l.filter (fun q => q.1 = k)).map (·.2)))).any
              (fun q => q.1 = p.1) = true
          ↔ p.1 ∈ dedupKeepFirst (l.map (·.1)) := by
        rw [List.any_eq_true]
        constructor
        · rintro ⟨x, hx, hfst⟩
          rw [List.mem_map] at hx
          obtain ⟨k', hk', rfl⟩ := hx
          have : k' = p.1 := by simpa using hfst
          subst this
          exact hk'
        · intro hp
          refine ⟨(p.1, (l.filter (fun q => q.1 = p.1)).map (·.2)),
            List.mem_map.mpr ⟨p.1, hp, rfl⟩, by simp⟩
      by_cases hmem : p.1 ∈ l.map (·.1)
      · have hdMem : p.1 ∈ dedupKeepFirst (l.map (·.1)) :=
          (mem_dedupKeepFirst _ _).mpr hmem
        rw [if_pos ((contains_iff_mem _ _).mpr hdMem)]
        rw [insertIntoBatches, if_pos (hany.mpr hdMem)]
        rw [List.map_map]
        apply List.map_congr_left
        intro k hk
        simp only [Function.comp_apply]
        by_cases hkp : k = p.1
        · subst hkp
          rw [if_pos rfl, List.filter_append, List.filter_singleton]
          simp
        · rw [if_neg hkp, List.filter_append, List.filter_singleton]
          have hne : (decide (p.1 = k)) = false :=
            decide_eq_false (fun h => hkp h.symm)
          simp [hne]
      · have hdMem : p.1 ∉ dedupKeepFirst (l.map (·.1)) := by
          rw [mem_dedupKeepFirst]
          exact hmem
        have hcont : ¬ ((dedupKeepFirst (l.map (·.1))).contains p.1 = true) := by
          intro h
          exact hdMem ((contains_iff_mem _ _).mp h)
        rw [if_neg hcont]
        rw [insertIntoBatches, if_neg (fun h => hdMem (hany.mp h))]
        rw [List.map_append]
        congr 1
        · apply List.map_congr_left
          intro k hk
          have hkne : p.1 ≠ k := by
            intro h
            subst h
            exact hdMem hk
          have : (l ++ [p]).filter (fun q => q.1 = k)
              = l.filter (fun q => q.1 = k) := by
            rw [List.filter_append, List.filter_singleton]
            have : (decide (p.1 = k)) = false := by simpa using hkne
            simp [this]
          rw [this]
        · have hnil : l.filter (fun q => q.1 = p.1) = [] := by
            rw [List.filter_eq_nil_iff]
            intro q hq hfst
            apply hmem
            rw [List.mem_map]
            exact ⟨q, hq, of_decide_eq_true hfst⟩
          have : (l ++ [p]).filter (fun q => q.1 = p.1) = [p] := by
            rw [List.filter_append, List.filter_singleton, hnil]
            simp
          rw [List.map_cons, List.map_nil, this]
          rfl

/-- Flattening the per-key groups of a duplicate-free key cover permutes
the original members. -/
theorem flatten_groups_perm (K : List String) :
    ∀ (ks : List (String × PlanSubtask)), K.Nodup → (∀ q ∈ ks, q.1 ∈ K) →
    ((K.map (fun k => (ks.filter (fun q => q.1 = k)).map (·.2))).flatten).Perm
      (ks.map (·.2)) := by
  induction K with
  | nil =>
      intro ks _ hall
      have : ks = [] := by
        cases ks with
        | nil => rfl
        | cons q t => exact absurd (hall q (List.mem_cons_self q t)) (List.not_mem_nil q.1)
      subst this
      exact List.Perm.refl _
  | cons k K' ih =>
      intro ks hnd hall
      rw [List.map_cons, List.flatten_cons]
      have hfilterswap : ∀ k' ∈ K',
          ks.filter (fun q => q.1 = k')
            = (ks.filter (fun q => !(decide (q.1 = k)))).filter
                (fun q => q.1 = k') := by
        intro k' hk'
        rw [List.filter_filter]
        apply List.filter_congr
        intro q _
        cases h : (decide (q.1 = k')) with
        | false => simp [h]
        | true =>
            have hq : q.1 = k' := of_decide_eq_true h
            have hkk : k' ≠ k := by
              intro hkk
              subst hkk
              exact (List.nodup_cons.mp hnd).1 hk'
            have hqk : (decide (q.1 = k)) = false := by
              rw [decide_eq_false_iff_not, hq]
              exact hkk
            simp [h, hqk]
      have hmapcongr : K'.map (fun k' => (ks.filter (fun q => q.1 = k')).map (·.2))
          = K'.map (fun k' =>
              (((ks.filter (fun q => !(decide (q.1 = k)))).filter
                (fun q => q.1 = k')).map (·.2))) :=
        List.map_congr_left (fun k' hk' => by rw [hfilterswap k' hk'])
      rw [hmapcongr]
      have hcond : ∀ q ∈ ks.filter (fun q => !(decide (q.1 = k))), q.1 ∈ K' := by
        intro q hq
        rw [List.mem_filter] at hq
        have h1 := hall q hq.1
        rw [List.mem_cons] at h1
        rcases h1 with h1 | h1
        · exfalso
          have h2 : q.1 ≠ k := by simpa using hq.2
          exact h2 h1
        · exact h1
      have ihapp := ih (ks.filter (fun q => !(decide (q.1 = k))))
        (List.nodup_cons.mp hnd).2 hcond
      refine List.Perm.trans (List.Perm.append_left _ ihapp) ?_
      rw [← List.map_append]
      exact List.Perm.map (fun x : String × PlanSubtask => x.2)
        (List.filter_append_perm (fun q : String × PlanSubtask => q.1 = k) ks)

/-- C7 counterexample: with `can_parallelize = true`, the explicit group
`"solo-2"` collides with the auto-generated key of the empty-group subtask
at position 2 — both land in one batch, so the empty-group subtask does not
get its own solo batch. -/
theorem C7_counterexample :
    (⟨true, [⟨"a", "ta", "da", "solo-2"⟩, ⟨"b", "tb", "db", ""⟩]⟩ : Plan).subtasks.map
        (·.parallel_group) = ["solo-2", ""] ∧
    buildBatches ⟨true, [⟨"a", "ta", "da", "solo-2"⟩, ⟨"b", "tb", "db", ""⟩]⟩
      = [[⟨"a", "ta", "da", "solo-2"⟩, ⟨"b", "tb", "db", ""⟩]] := by
  decide

/-- C7 (amended): `buildBatches` groups subtasks by the key
`parallel_group` when `can_parallelize` is true and the group is non-empty,
`solo-(position+1)` when the group is empty, and `seq-(position+1)` when
`can_parallelize` is false; subtasks sharing a key form one batch, batches
are ordered by first appearance of their key, and every plan subtask lands
in exactly one batch. An explicit group literally named `solo-(n+1)`
therefore shares its batch with an empty-group subtask at position n. -/
theorem C7_batch_grouping (plan : Plan) :
    buildBatches plan = specBatches plan ∧
    ((buildBatches plan).flatten).Perm plan.subtasks := by
  have hfold := insertFold_spec (keyedSubtasks plan)
  constructor
  · rw [buildBatches, hfold, specBatches, List.map_map]
    rfl
  · rw [buildBatches, hfold, List.map_map]
    have hK := flatten_groups_perm
      (dedupKeepFirst ((keyedSubtasks plan).map (·.1))) (keyedSubtasks plan)
      (nodup_dedupKeepFirst _)
      (fun q hq => (mem_dedupKeepFirst _ _).mpr (List.mem_map.mpr ⟨q, hq, rfl⟩))
    have hsnd : (keyedSubtasks plan).map (·.2) = plan.subtasks := by
      rw [keyedSubtasks, List.map_map]
      exact List.enum_map_snd plan.subtasks
    rw [hsnd] at hK
    exact hK

/-! ## C10 — whole-input parses and the null conflation -/

/-- C10: when the entire trimmed input parses as JSON to a non-null value
(an array, number, string, boolean or object), `extractLastJsonObject`
returns that value; but the input `"null"` parses successfully to the JSON
`null`, which `tryParseJson` cannot distinguish from a parse failure, so the
extractor falls through to brace scanning and throws, there being no
closing-brace candidate. -/
theorem C10_extractor_whole_parse :
    (∀ (s : String) (v : JsonVal),
      jsonParseWhole (String.mk (trimChars s.data)) = some v →
      v.isNull = false →
      extractLastJsonObject s = .value v) ∧
    (jsonParseWhole "null" = some JsonVal.null ∧
     extractLastJsonObject "null" = .thrown) := by
  constructor
  · intro s v hparse hnull
    have hne : (trimChars s.data).isEmpty = false := by
      cases he : trimChars s.data with
      | nil =>
          rw [he] at hparse
          exact absurd hparse (by intro h; cases h)
      | cons c t => rfl
    have hdirect : tryParseJson (String.mk (trimChars s.data)) = some v := by
      rw [tryParseJson, hparse]
      simp [hnull]
    rw [extractLastJsonObject,
      if_neg (by rw [hne]; exact Bool.false_ne_true), hdirect]
  · exact ⟨rfl, rfl⟩

/-- C10 witness: a whole-input array — the extractor returns the parsed
array, not an object. -/
theorem C10_extractor_whole_parse_witness :
    jsonParseWhole (String.mk (trimChars "[1, 2]".data))
      = some (JsonVal.arr [JsonVal.num "1", JsonVal.num "2"]) ∧
    extractLastJsonObject "[1, 2]"
      = .value (JsonVal.arr [JsonVal.num "1", JsonVal.num "2"]) :=
  ⟨rfl, C10_extractor_whole_parse.1 "[1, 2]" _ rfl rfl⟩

/-! ## C6 — the brace-scanning extractor -/

/-- A head of the descending position list is an occurrence within the
bound. -/
theorem descPositions_head_mem (l : List Char) (c : Char) (k : Nat)
    {s : Nat} (h : (descPositions l c k).head? = some s) :
    l.get? s = some c ∧ s ≤ k := by
  rw [descPositions, List.head?_reverse] at h
  have hmem : s ∈ (List.range (k + 1)).filter (fun i => l.get? i = some c) := by
    obtain ⟨hne, heq⟩ := List.mem_getLast?_eq_getLast (Option.mem_def.mpr h)
    rw [heq]
    exact List.getLast_mem hne
  rw [List.mem_filter, List.mem_range] at hmem
  exact ⟨of_decide_eq_true hmem.2, Nat.lt_succ_iff.mp hmem.1⟩

/-- A brace position bounds its own descending list: the list starts with
the position itself. -/
theorem descPositions_self (l : List Char) (c : Char) (s : Nat)
    (h : l.get? s = some c) :
    descPositions l c s
      = s :: ((List.range s).filter (fun i => l.get? i = some c)).reverse := by
  rw [descPositions, List.range_succ, List.filter_append, List.filter_singleton]
  rw [show (decide (l.get? s = some c)) = true from decide_eq_true h]
  rw [List.reverse_append]
  rfl

/-- The descending list below any bound is determined by its head: the
positions below the head follow it. -/
theorem descPositions_head_structure (l : List Char) (c : Char) (k : Nat) :
    ∀ s, (descPositions l c k).head? = some s →
    descPositions l c k
      = s :: ((List.range s).filter (fun i => l.get? i = some c)).reverse := by
  induction k with
  | zero =>
      intro s h
      have hm := descPositions_head_mem l c 0 h
      have hs : s = 0 := Nat.le_zero.mp hm.2
      subst hs
      rw [descPositions_self l c 0 hm.1]
  | succ k ih =>
      intro s h
      cases hP : (decide (l.get? (k + 1) = some c)) with
      | true =>
          have hP' : l.get? (k + 1) = some c := of_decide_eq_true hP
          have hself := descPositions_self l c (k + 1) hP'
          have hhead : k + 1 = s := by
            rw [hself] at h
            simpa using h
          subst hhead
          exact hself
      | false =>
          have hdrop : descPositions l c (k + 1) = descPositions l c k := by
            rw [descPositions, descPositions, List.range_succ, List.filter_append,
              List.filter_singleton, hP]
            simp
          rw [hdrop] at h ⊢
          exact ih s h

/-- `lastIndexOf` at a non-negative index is the head of the descending
position list bounded by it. -/
theorem jsLastIndexOfChar_natCast (l : List Char) (c : Char) (k : Nat) :
    jsLastIndexOfChar l c (k : Int) = (descPositions l c k).head? := by
  rw [jsLastIndexOfChar]
  rw [if_neg (by exact Int.not_lt.mpr (Int.natCast_nonneg k))]
  rw [Int.toNat_natCast]

/-- One unfolding of the declarative walk at a non-empty position list. -/
theorem specScan_cons (trimmed : List Char) (lastClosing : Nat) (i : Nat)
    (rest : List Nat) :
    specScan trimmed lastClosing (i :: rest)
      = match tryParseJson (candidateSlice trimmed lastClosing i) with
        | some v => .value v
        | none =>
            if rest.isEmpty then (if i = 0 then ExtractOutcome.hang else .thrown)
            else specScan trimmed lastClosing rest := by
  rfl

/-- The scan loop agrees with the declarative walk over the descending list
of brace positions. -/
theorem extractScan_eq_specScan (trimmed : List Char) (lastClosing : Nat) :
    ∀ (fuel start : Nat), start < fuel →
    trimmed.get? start = some lbraceChar →
    extractScan trimmed lastClosing fuel start
      = specScan trimmed lastClosing (descPositions trimmed lbraceChar start) := by
  intro fuel
  induction fuel with
  | zero => intro start h; omega
  | succ f ih =>
      intro start hlt hstart
      rw [descPositions_self _ _ _ hstart, extractScan, specScan_cons]
      cases hparse : tryParseJson (candidateSlice trimmed lastClosing start) with
      | some v => rfl
      | none =>
          dsimp only
          cases start with
          | zero =>
              have hneg : jsLastIndexOfChar trimmed lbraceChar (((0 : Nat) : Int) - 1)
                  = (descPositions trimmed lbraceChar 0).head? := by
                rw [jsLastIndexOfChar, if_pos (by norm_num)]
              have h0 : descPositions trimmed lbraceChar 0 = [0] := by
                rw [descPositions_self _ _ _ hstart]
                rfl
              rw [hneg, h0]
              rfl
          | succ s =>
              have hcast : (((s + 1 : Nat)) : Int) - 1 = ((s : Nat) : Int) := by
                push_cast
                ring
              rw [hcast, jsLastIndexOfChar_natCast]
              have hT : ((List.range (s + 1)).filter
                    (fun i => trimmed.get? i = some lbraceChar)).reverse
                  = descPositions trimmed lbraceChar s := rfl
              rw [hT]
              cases hnext : (descPositions trimmed lbraceChar s).head? with
              | none =>
                  rw [List.head?_eq_none_iff.mp hnext]
                  rfl
              | some s2 =>
                  have hm := descPositions_head_mem trimmed lbraceChar s hnext
                  have hs2lt : s2 < s + 1 := Nat.lt_succ_of_le hm.2
                  have hstruct := descPositions_head_structure trimmed lbraceChar s s2 hnext
                  rw [hstruct]
                  dsimp only
                  rw [if_pos hs2lt]
                  have hihyp : s2 < f := by omega
                  rw [ih s2 hihyp hm.1, descPositions_self _ _ _ hm.1]
                  rw [if_neg (by simp)]

/-- C6 counterexample: the text is a valid JSON object followed by the
commentary `" x\x7d"`. The strict parse fails, the last closing brace lies in
the commentary, the only candidate (the whole text) does not parse, and the
walk then calls `lastIndexOf` with a negative index, which JavaScript clamps
to 0 — the loop revisits position 0 forever: the extractor hangs instead of
returning the object (commentary before the object, by contrast, is
recovered). -/
theorem C6_counterexample :
    (jsonParseWhole "\x7b\"a\":1\x7d").isSome = true ∧
    (extractLastJsonObject "\x7b\"a\":1\x7d x\x7d").isHang = true ∧
    (extractLastJsonObject "note \x7bx\x7d blah \x7b\"a\":1\x7d").isValue = true := by
  refine ⟨rfl, rfl, rfl⟩

/-- C6 (amended): the extractor first attempts a strict parse of the whole
trimmed text; if that fails it locates the last closing brace and walks the
opening-brace positions before it from right to left, returning the parse of
the first candidate slice that parses. It throws when the trimmed text is
empty, has no closing brace, has no opening brace before the last closing
one, or when no candidate parses and the walk ends above position 0; but
when the trimmed text begins with an opening brace and no candidate parses,
JavaScript's `lastIndexOf` clamps the final negative index to 0 and the loop
never terminates. In particular commentary after the final JSON object that
contains a closing brace can make the extractor hang rather than recover
the object. This theorem equates the loop with that declarative
description. -/
theorem C6_extractor_described (text : String) :
    extractLastJsonObject text = extractSpecDescribed text := by
  rw [extractLastJsonObject, extractSpecDescribed]
  by_cases hempty : (trimChars text.data).isEmpty = true
  · rw [if_pos hempty, if_pos hempty]
  · rw [if_neg hempty, if_neg hempty]
    cases hdirect : tryParseJson (String.mk (trimChars text.data)) with
    | some v => rfl
    | none =>
        dsimp only
        rw [jsLastIndexOfChar_natCast]
        cases hlc : (descPositions (trimChars text.data) rbraceChar
            (trimChars text.data).length).head? with
        | none => rfl
        | some lastClosing =>
            dsimp only
            rw [jsLastIndexOfChar_natCast]
            cases hst : (descPositions (trimChars text.data) lbraceChar
                lastClosing).head? with
            | none =>
                rw [List.head?_eq_none_iff.mp hst]
                rfl
            | some start0 =>
                have hm := descPositions_head_mem (trimChars text.data)
                  lbraceChar lastClosing hst
                have hstruct := descPositions_head_structure (trimChars text.data)
                  lbraceChar lastClosing start0 hst
                rw [hstruct, ← descPositions_self _ _ _ hm.1]
                exact extractScan_eq_specScan _ _ (start0 + 1) start0
                  (Nat.lt_succ_self start0) hm.1

end Orchestrator
